import Mathlib

/-!
Shallow embedding of SMCPy's particle-population core
(`smcpy/smc/particles.py` and `smcpy/smc/initializer.py`) over exact real
arithmetic, together with proofs of the specified properties.

Arrays are embedded as `List ℝ`; the `params` matrix
(`np.vstack(list(params.values())).T`, shape N × P) is kept column-wise as
`param_cols : List (List ℝ)` — column `j` is exactly the value array of the
`j`-th dictionary entry, and all source statistics operate per column
(`axis=0`), so this is the same data indexed the same way.
-/

namespace SMCPy

/-- Python error classes raised by the embedded code paths. -/
inductive PyError
  | typeError
  | valueError
deriving DecidableEq, Repr

/-- Parameter dictionary: the ordered name-to-array mapping accepted by
`Particles.__init__` (Python dicts preserve insertion order). -/
abbrev ParamDict := List (String × List ℝ)

/-- The `params` argument as passed to `Particles.__init__`: either a dict of
array-likes, or any non-dict object (which `Checks._is_dict` rejects). -/
inductive ParamsArg
  | dict (d : ParamDict)
  | nonDict

/-- Python builtin `max` over a list of reals.  The source applies it to a
nonempty weight column; on `[]` Python raises ValueError, which is modelled at
the call site (`Particles.make`), so the value returned here for `[]` is never
reached from a successful construction. -/
noncomputable def listMax : List ℝ → ℝ
  | [] => 0
  | x :: xs => xs.foldl max x

/-- Embedding of `Particles._normalize_log_weights` (particles.py 164-170):
`shifted_weights = np.exp(log_weights - max(log_weights))`,
`normalized_weights = shifted_weights / sum(shifted_weights)`,
returning `np.log(normalized_weights)`. -/
noncomputable def normalize_log_weights (log_weights : List ℝ) : List ℝ :=
  let m := listMax log_weights
  let shifted_weights := log_weights.map (fun w => Real.exp (w - m))
  let z := shifted_weights.sum
  (shifted_weights.map (fun s => s / z)).map Real.log

/-- The particle container `Particles` after a successful `__init__`:
parameter names and per-parameter value columns, log-likelihoods, and the
normalized log-weights with their exponentials (particles.py 98-154). -/
structure Particles where
  param_names : List String
  param_cols : List (List ℝ)
  num_particles : ℕ
  log_likes : List ℝ
  log_weights : List ℝ
  weights : List ℝ

/-- State stored by the success path of `Particles.__init__` for a params dict
`d`: `_param_names = tuple(params.keys())`, the columns of
`np.vstack(list(params.values())).T` are the dict's value arrays,
`_num_particles` is the common column length, `_log_likes` keeps the input
values, and `_set_and_norm_log_weights` stores the normalized log-weights and
their exponentials (particles.py 112-154). -/
noncomputable def Particles.ofRaw (d : ParamDict) (log_likes log_weights : List ℝ) :
    Particles :=
  { param_names := d.map Prod.fst
    param_cols := d.map Prod.snd
    num_particles := (d.headD ("", [])).2.length
    log_likes := log_likes
    log_weights := normalize_log_weights log_weights
    weights := (normalize_log_weights log_weights).map Real.exp }

/-- Embedding of `Particles.__init__` (particles.py 98-114) with its validation
chain: `_set_params` raises TypeError on a non-dict and ValueError from
`np.vstack` on an empty dict or ragged columns; `_set_log_likes` and
`_set_and_norm_log_weights` raise ValueError on a length mismatch with the
particle count; finally Python's `max` inside `_normalize_log_weights` raises
ValueError on an empty weight column (N = 0). -/
noncomputable def Particles.make (params : ParamsArg) (log_likes log_weights : List ℝ) :
    Except PyError Particles :=
  match params with
  | .nonDict => .error .typeError
  | .dict [] => .error .valueError
  | .dict ((n0, v0) :: rest) =>
      if ¬ rest.all (fun pr => pr.2.length == v0.length) then .error .valueError
      else if log_likes.length ≠ v0.length then .error .valueError
      else if log_weights.length ≠ v0.length then .error .valueError
      else if v0.length = 0 then .error .valueError
      else .ok (Particles.ofRaw ((n0, v0) :: rest) log_likes log_weights)

/-- Embedding of `Particles.compute_ess` (particles.py 178-182):
`1 / np.sum(self.weights ** 2)`. -/
noncomputable def compute_ess (p : Particles) : ℝ :=
  1 / (p.weights.map (fun w => w ^ 2)).sum

/-- Embedding of `Particles.compute_mean` (particles.py 184-189), unpackaged
form: `np.sum(self.params * self.weights, axis=0)`, one weighted sum per
parameter column. -/
noncomputable def compute_mean (p : Particles) : List ℝ :=
  p.param_cols.map (fun col => (List.zipWith (fun x w => x * w) col p.weights).sum)

/-- Embedding of `Particles.compute_variance` (particles.py 191-199),
unpackaged form: `norm = 1 - np.sum(self.weights ** 2)` and
`np.sum(self.weights * (self.params - means) ** 2, axis=0) / norm`. -/
noncomputable def compute_variance (p : Particles) : List ℝ :=
  let means := compute_mean p
  let norm := 1 - (p.weights.map (fun w => w ^ 2)).sum
  List.zipWith
    (fun col m => (List.zipWith (fun x w => w * (x - m) ^ 2) col p.weights).sum / norm)
    p.param_cols means

/-- Embedding of `Particles.compute_std_dev` (particles.py 201-207),
unpackaged form: `np.sqrt(self.compute_variance(package=False))`. -/
noncomputable def compute_std_dev (p : Particles) : List ℝ :=
  (compute_variance p).map Real.sqrt

/-- Entry accessor for a matrix embedded as a row list of column lists,
defaulting to 0 outside the stored shape. -/
def Mat.entry (m : List (List ℝ)) (j k : ℕ) : ℝ :=
  (m.getD j []).getD k 0

/-- Unrepaired weighted covariance matrix of `Particles.compute_covariance`
(particles.py 214-217): `diff = self.params - means`,
`norm = 1 / (1 - np.sum(self.weights ** 2))`, and
`cov = np.dot(diff.T, diff * self.weights) * norm`, whose (j, k) entry is
`norm * Σ_i diff[i][j] * diff[i][k] * w[i]`. -/
noncomputable def raw_covariance (p : Particles) : List (List ℝ) :=
  let means := compute_mean p
  let diff_cols := List.zipWith (fun col m => col.map (fun x => x - m)) p.param_cols means
  let norm := 1 / (1 - (p.weights.map (fun w => w ^ 2)).sum)
  diff_cols.map (fun cj =>
    diff_cols.map (fun ck =>
      (List.zipWith (fun a b => a * b) cj (List.zipWith (fun b w => b * w) ck p.weights)).sum
        * norm))

/-- Repair step of `Particles.compute_covariance` (particles.py 219-222):
`np.eye(cov.shape[0]) * np.diag(cov)`, i.e. the matrix whose (j, k) entry is
`cov[j][j]` when `j = k` and 0 otherwise. -/
noncomputable def repair_covariance (cov : List (List ℝ)) : List (List ℝ) :=
  (List.range cov.length).map (fun j =>
    (List.range cov.length).map (fun k => if j = k then Mat.entry cov j j else 0))

/-- Embedding of `Particles.compute_covariance` (particles.py 209-224).  The
positive-definiteness test `Checks._is_positive_definite` lives in
`smcpy/utils/checks.py`, outside the provided sources, so the method is
parameterized by that predicate.  The second component records whether
`warnings.warn` was called; the method never raises on this condition. -/
noncomputable def compute_covariance (is_positive_definite : List (List ℝ) → Bool)
    (p : Particles) : List (List ℝ) × Bool :=
  let cov := raw_covariance p
  if is_positive_definite cov then (cov, false)
  else (repair_covariance cov, true)

/-- Capability set of the MCMC kernel as used by `Initializer`
(initializer.py 60-93): prior sampling, log-likelihood evaluation, and
log-prior evaluation.  The kernel interface class `MCMCKernel`
(`smcpy/mcmc/kernel_base.py`) is outside the provided sources; it is modelled
as opaque data holding the three operations the initializer invokes. -/
structure MCMCKernelData where
  sample_from_prior : ℕ → ParamDict
  get_log_likelihoods : ParamDict → List ℝ
  get_log_priors : ParamDict → List ℝ

/-- Argument passed to `Initializer.__init__`: either an object that is an
instance of `MCMCKernel`, or any other object (failing
`isinstance(mcmc_kernel, MCMCKernel)`). -/
inductive KernelArg
  | kernel (k : MCMCKernelData)
  | notKernel

/-- The initializer after a successful construction (initializer.py 42-58). -/
structure Initializer where
  mcmc_kernel : MCMCKernelData

/-- Embedding of `Initializer.__init__` together with the `mcmc_kernel`
setter (initializer.py 47-58): raise TypeError unless the argument is an
`MCMCKernel` instance, else store it.  The second component is the trace of
kernel operations invoked during construction; the constructor body performs
only the isinstance check and an attribute assignment, so the trace is empty
on both paths. -/
def Initializer.make (arg : KernelArg) : Except PyError Initializer × List String :=
  match arg with
  | .notKernel => (.error .typeError, [])
  | .kernel k => (.ok ⟨k⟩, [])

/-- Embedding of `Initializer.init_particles_from_prior` (initializer.py
60-72): sample params from the prior, evaluate log-likelihoods, assign the
uniform raw log-weight `np.log(1 / num_particles)` to all `num_particles`
particles, and construct `Particles`. -/
noncomputable def init_particles_from_prior (init : Initializer) (num_particles : ℕ) :
    Except PyError Particles :=
  let params := init.mcmc_kernel.sample_from_prior num_particles
  let log_likes := init.mcmc_kernel.get_log_likelihoods params
  let log_weights := List.replicate num_particles (Real.log (1 / (num_particles : ℝ)))
  Particles.make (.dict params) log_likes log_weights

/-- Embedding of `Initializer.init_particles_from_samples` (initializer.py
74-93): evaluate log-likelihoods and log-priors at the supplied samples,
compute the raw log-weights elementwise as
`log_priors - np.log(proposal_pdensities)`, and construct `Particles`. -/
noncomputable def init_particles_from_samples (init : Initializer) (samples : ParamDict)
    (proposal_pdensities : List ℝ) : Except PyError Particles :=
  let log_likes := init.mcmc_kernel.get_log_likelihoods samples
  let log_priors := init.mcmc_kernel.get_log_priors samples
  let log_weights :=
    List.zipWith (fun lp pd => lp - Real.log pd) log_priors proposal_pdensities
  Particles.make (.dict samples) log_likes log_weights

/-- Modelled from the spec: `get_num_particles_in_partition(total, rank)` of
the partition-aware initializer is absent from the provided sources (only its
unit test `test_get_num_particles_in_partition` exercises it).  Per the spec,
each of the `size` ranks gets `floor(total / size)` particles and the first
`total mod size` ranks (ascending rank index) each get one extra. -/
def get_num_particles_in_partition (total rank size : ℕ) : ℕ :=
  total / size + if rank < total % size then 1 else 0

/-- Example kernel data used to instantiate the initializer theorems on the
inputs of the test suite (`test_initializer.py`). -/
noncomputable def exampleKernel : MCMCKernelData :=
  { sample_from_prior := fun _ => [("a", [1, 1, 1, 2, 2])]
    get_log_likelihoods := fun _ => [0.1, 0.1, 0.1, 0.2, 0.2]
    get_log_priors := fun _ => [0.2, 0.2, 0.2, 0.3, 0.3] }

/-! Helper lemmas about lists. -/

lemma getD_map_of_lt {α β : Type} (f : α → β) (l : List α) (j : ℕ) (d : β) (dA : α)
    (hj : j < l.length) : (l.map f).getD j d = f (l.getD j dA) := by
  induction l generalizing j with
  | nil => simp at hj
  | cons x xs ih =>
    cases j with
    | zero => rfl
    | succ n =>
      show (xs.map f).getD n d = f (xs.getD n dA)
      exact ih n (Nat.lt_of_succ_lt_succ hj)

lemma getD_zipWith_of_lt {α β γ : Type} (f : α → β → γ) (a : List α) (b : List β)
    (j : ℕ) (d : γ) (dA : α) (dB : β) (hja : j < a.length) (hjb : j < b.length) :
    (List.zipWith f a b).getD j d = f (a.getD j dA) (b.getD j dB) := by
  induction a generalizing b j with
  | nil => simp at hja
  | cons x xs ih =>
    cases b with
    | nil => simp at hjb
    | cons y ys =>
      cases j with
      | zero => rfl
      | succ n =>
        show (List.zipWith f xs ys).getD n d = f (xs.getD n dA) (ys.getD n dB)
        exact ih ys n (Nat.lt_of_succ_lt_succ hja) (Nat.lt_of_succ_lt_succ hjb)

lemma getD_range_of_lt (n j : ℕ) (d : ℕ) (hj : j < n) : (List.range n).getD j d = j := by
  rw [List.getD_eq_getElem?_getD, List.getElem?_range hj]
  rfl

lemma sum_map_div (l : List ℝ) (z : ℝ) : (l.map (fun s => s / z)).sum = l.sum / z := by
  induction l with
  | nil => simp
  | cons x xs ih => simp [ih, add_div]

lemma list_sum_eq_finset_sum (l : List ℝ) :
    l.sum = ∑ i in Finset.range l.length, l.getD i 0 := by
  induction l with
  | nil => simp
  | cons x xs ih =>
    rw [List.sum_cons, List.length_cons, Finset.sum_range_succ', ih]
    simp [List.getD, add_comm]

lemma sq_list_sum_le (l : List ℝ) :
    l.sum ^ 2 ≤ (l.length : ℝ) * (l.map (fun x => x ^ 2)).sum := by
  have hmap : (l.map (fun x => x ^ 2)).sum = ∑ i in Finset.range l.length, l.getD i 0 ^ 2 := by
    rw [list_sum_eq_finset_sum, List.length_map]
    exact Finset.sum_congr rfl fun i hi =>
      getD_map_of_lt (fun x => x ^ 2) l i 0 0 (Finset.mem_range.1 hi)
  have hcs := Finset.sum_mul_sq_le_sq_mul_sq (Finset.range l.length)
    (fun i => l.getD i 0) (fun _ => (1 : ℝ))
  simp only [mul_one, one_pow, Finset.sum_const, Finset.card_range, nsmul_eq_mul] at hcs
  rw [list_sum_eq_finset_sum, hmap]
  calc (∑ i in Finset.range l.length, l.getD i 0) ^ 2
      ≤ (∑ i in Finset.range l.length, l.getD i 0 ^ 2) * l.length := hcs
    _ = (l.length : ℝ) * ∑ i in Finset.range l.length, l.getD i 0 ^ 2 := mul_comm _ _

lemma sum_sq_le_sq_sum_of_nonneg (l : List ℝ) (h : ∀ x ∈ l, 0 ≤ x) :
    (l.map (fun x => x ^ 2)).sum ≤ l.sum ^ 2 := by
  induction l with
  | nil => simp
  | cons x xs ih =>
    have hx : 0 ≤ x := h x (by simp)
    have hxs : ∀ y ∈ xs, 0 ≤ y := fun y hy => h y (by simp [hy])
    have hs : 0 ≤ xs.sum := List.sum_nonneg hxs
    have hih := ih hxs
    simp only [List.map_cons, List.sum_cons]
    nlinarith [mul_nonneg hx hs]

lemma inner3_comm (a b w : List ℝ) :
    (List.zipWith (fun x y => x * y) a (List.zipWith (fun x y => x * y) b w)).sum
      = (List.zipWith (fun x y => x * y) b (List.zipWith (fun x y => x * y) a w)).sum := by
  induction a generalizing b w with
  | nil => cases b <;> cases w <;> simp
  | cons x xs ih =>
    cases b with
    | nil => simp
    | cons y ys =>
      cases w with
      | nil => simp
      | cons z zs =>
        simp only [List.zipWith_cons_cons, List.sum_cons]
        rw [ih ys zs]
        ring

lemma foldl_max_map_add (xs : List ℝ) (a c : ℝ) :
    (xs.map (fun x => x + c)).foldl max (a + c) = xs.foldl max a + c := by
  induction xs generalizing a with
  | nil => simp
  | cons y ys ih =>
    simp only [List.map_cons, List.foldl_cons]
    rw [max_add_add_right a y c]
    exact ih (max a y)

lemma listMax_shift (w : List ℝ) (c : ℝ) (h : w ≠ []) :
    listMax (w.map (fun x => x + c)) = listMax w + c := by
  cases w with
  | nil => exact absurd rfl h
  | cons x xs =>
    show (xs.map (fun x => x + c)).foldl max (x + c) = xs.foldl max x + c
    exact foldl_max_map_add xs x c

lemma foldl_max_replicate (n : ℕ) (c : ℝ) : (List.replicate n c).foldl max c = c := by
  induction n with
  | zero => rfl
  | succ m ih => simpa [List.replicate_succ, max_self] using ih

lemma listMax_replicate (n : ℕ) (c : ℝ) (hn : 0 < n) :
    listMax (List.replicate n c) = c := by
  cases n with
  | zero => omega
  | succ m =>
    show (List.replicate m c).foldl max c = c
    exact foldl_max_replicate m c

/-! Helper lemmas about the normalization pipeline. -/

lemma sum_exp_pos (w : List ℝ) (h : w ≠ []) :
    0 < (w.map (fun y => Real.exp (y - listMax w))).sum := by
  refine List.sum_pos _ ?_ ?_
  · intro x hx
    obtain ⟨a, _, rfl⟩ := List.mem_map.1 hx
    exact Real.exp_pos _
  · intro hnil
    exact h (List.map_eq_nil_iff.1 hnil)

lemma sum_exp_log_div_sum (S : List ℝ) (hpos : ∀ x ∈ S, 0 < x) (hne : S ≠ []) :
    (((S.map (fun t => t / S.sum)).map Real.log).map Real.exp).sum = 1 := by
  have hz : 0 < S.sum := List.sum_pos S hpos hne
  have h1 : ((S.map (fun t => t / S.sum)).map Real.log).map Real.exp
      = S.map (fun t => t / S.sum) := by
    rw [List.map_map]
    have hid : ∀ t ∈ S.map (fun t => t / S.sum), (Real.exp ∘ Real.log) t = id t := by
      intro t ht
      obtain ⟨x, hx, rfl⟩ := List.mem_map.1 ht
      simp only [Function.comp, id]
      exact Real.exp_log (div_pos (hpos x hx) hz)
    rw [List.map_congr_left hid, List.map_id]
  rw [h1, sum_map_div, div_self (ne_of_gt hz)]

lemma sum_exp_normalize (w : List ℝ) (h : w ≠ []) :
    ((normalize_log_weights w).map Real.exp).sum = 1 := by
  have heq : normalize_log_weights w
      = ((w.map (fun y => Real.exp (y - listMax w))).map
          (fun t => t / (w.map (fun y => Real.exp (y - listMax w))).sum)).map Real.log := rfl
  rw [heq]
  refine sum_exp_log_div_sum _ ?_ ?_
  · intro x hx
    obtain ⟨a, _, rfl⟩ := List.mem_map.1 hx
    exact Real.exp_pos _
  · intro hnil
    exact h (List.map_eq_nil_iff.1 hnil)

lemma normalize_log_weights_closed (w : List ℝ) (h : w ≠ []) :
    normalize_log_weights w
      = w.map (fun x => x - listMax w
          - Real.log ((w.map (fun y => Real.exp (y - listMax w))).sum)) := by
  have hz : 0 < (w.map (fun y => Real.exp (y - listMax w))).sum := sum_exp_pos w h
  have heq : normalize_log_weights w
      = ((w.map (fun y => Real.exp (y - listMax w))).map
          (fun t => t / (w.map (fun y => Real.exp (y - listMax w))).sum)).map Real.log := rfl
  rw [heq, List.map_map, List.map_map]
  refine List.map_congr_left fun x _ => ?_
  simp only [Function.comp]
  rw [Real.log_div (ne_of_gt (Real.exp_pos _)) (ne_of_gt hz), Real.log_exp]

lemma normalize_log_weights_shift (w : List ℝ) (c : ℝ) (h : w ≠ []) :
    normalize_log_weights (w.map (fun x => x + c)) = normalize_log_weights w := by
  have key : (w.map (fun x => x + c)).map
        (fun y => Real.exp (y - listMax (w.map (fun x => x + c))))
      = w.map (fun y => Real.exp (y - listMax w)) := by
    rw [listMax_shift w c h, List.map_map]
    refine List.map_congr_left fun x _ => ?_
    simp only [Function.comp]
    congr 1
    ring
  exact congrArg (fun S : List ℝ => (S.map (fun t => t / S.sum)).map Real.log) key

lemma normalize_replicate_weights (N : ℕ) (c : ℝ) (hN : 0 < N) :
    (normalize_log_weights (List.replicate N c)).map Real.exp
      = List.replicate N (1 / (N : ℝ)) := by
  have hmax := listMax_replicate N c hN
  have hshift : (List.replicate N c).map
        (fun y => Real.exp (y - listMax (List.replicate N c)))
      = List.replicate N 1 := by
    rw [hmax, List.map_replicate, sub_self, Real.exp_zero]
  have hsum : (List.replicate N (1 : ℝ)).sum = (N : ℝ) := by
    rw [List.sum_replicate, nsmul_eq_mul, mul_one]
  have heq : normalize_log_weights (List.replicate N c)
      = (((List.replicate N c).map
            (fun y => Real.exp (y - listMax (List.replicate N c)))).map
          (fun t => t / ((List.replicate N c).map
            (fun y => Real.exp (y - listMax (List.replicate N c)))).sum)).map Real.log := rfl
  rw [heq, hshift, hsum, List.map_replicate, List.map_replicate, List.map_replicate]
  have hNpos : (0 : ℝ) < (N : ℝ) := by exact_mod_cast hN
  rw [Real.exp_log (by positivity)]

lemma normalize_length (w : List ℝ) :
    (normalize_log_weights w).length = w.length := by
  have heq : normalize_log_weights w
      = ((w.map (fun y => Real.exp (y - listMax w))).map
          (fun t => t / (w.map (fun y => Real.exp (y - listMax w))).sum)).map Real.log := rfl
  rw [heq]
  simp

lemma make_ok (d : ParamDict) (ll lw : List ℝ) (N : ℕ) (hd : d ≠ [])
    (hcols : ∀ pr ∈ d, pr.2.length = N) (hll : ll.length = N) (hlw : lw.length = N)
    (hN : 0 < N) :
    Particles.make (.dict d) ll lw = .ok (Particles.ofRaw d ll lw) := by
  cases d with
  | nil => exact absurd rfl hd
  | cons pr rest =>
    obtain ⟨n0, v0⟩ := pr
    have hv0 : v0.length = N := hcols (n0, v0) (by simp)
    have hN0 : N ≠ 0 := Nat.pos_iff_ne_zero.mp hN
    have hrest : ∀ x y, (x, y) ∈ rest → y.length = N :=
      fun x y hxy => hcols (x, y) (by simp [hxy])
    simp [Particles.make, hv0, hll, hlw, hN0]
    exact hrest

lemma compute_mean_length (p : Particles) :
    (compute_mean p).length = p.param_cols.length := by
  simp [compute_mean]

lemma raw_covariance_length (p : Particles) :
    (raw_covariance p).length = p.param_cols.length := by
  simp [raw_covariance, compute_mean]

lemma raw_covariance_entry (p : Particles) (a b : ℕ)
    (ha : a < p.param_cols.length) (hb : b < p.param_cols.length) :
    Mat.entry (raw_covariance p) a b
      = (List.zipWith (fun x y => x * y)
          ((List.zipWith (fun col m => col.map (fun x => x - m))
              p.param_cols (compute_mean p)).getD a [])
          (List.zipWith (fun x y => x * y)
            ((List.zipWith (fun col m => col.map (fun x => x - m))
                p.param_cols (compute_mean p)).getD b [])
            p.weights)).sum
        * (1 / (1 - (p.weights.map (fun w => w ^ 2)).sum)) := by
  have hdlen : (List.zipWith (fun col m => col.map (fun x => x - m))
      p.param_cols (compute_mean p)).length = p.param_cols.length := by
    rw [List.length_zipWith, compute_mean_length, Nat.min_self]
  show Mat.entry ((List.zipWith (fun col m => col.map (fun x => x - m))
      p.param_cols (compute_mean p)).map (fun cj =>
        (List.zipWith (fun col m => col.map (fun x => x - m))
            p.param_cols (compute_mean p)).map (fun ck =>
          (List.zipWith (fun x y => x * y) cj
            (List.zipWith (fun x y => x * y) ck p.weights)).sum
            * (1 / (1 - (p.weights.map (fun w => w ^ 2)).sum))))) a b = _
  unfold Mat.entry
  rw [getD_map_of_lt _ _ a [] [] (by rw [hdlen]; exact ha)]
  rw [getD_map_of_lt _ _ b 0 [] (by rw [hdlen]; exact hb)]

lemma raw_covariance_symm (p : Particles) (a b : ℕ)
    (ha : a < p.param_cols.length) (hb : b < p.param_cols.length) :
    Mat.entry (raw_covariance p) a b = Mat.entry (raw_covariance p) b a := by
  rw [raw_covariance_entry p a b ha hb, raw_covariance_entry p b a hb ha]
  rw [inner3_comm
    ((List.zipWith (fun col m => col.map (fun x => x - m))
        p.param_cols (compute_mean p)).getD a [])
    ((List.zipWith (fun col m => col.map (fun x => x - m))
        p.param_cols (compute_mean p)).getD b [])
    p.weights]

lemma repair_entry (cov : List (List ℝ)) (a b : ℕ)
    (ha : a < cov.length) (hb : b < cov.length) :
    Mat.entry (repair_covariance cov) a b
      = if a = b then Mat.entry cov a a else 0 := by
  unfold repair_covariance Mat.entry
  rw [getD_map_of_lt _ (List.range cov.length) a [] 0
    (by rw [List.length_range]; exact ha)]
  rw [getD_range_of_lt cov.length a 0 ha]
  rw [getD_map_of_lt _ (List.range cov.length) b 0 0
    (by rw [List.length_range]; exact hb)]
  rw [getD_range_of_lt cov.length b 0 hb]

/-! Claim theorems. -/

/-- C1: for every non-empty raw log-weight vector `w` accepted at
construction, the `Particles` container stores normalized log-weights equal to
`w - m - log(z)` with `m = max(w)` and `z = sum(exp(w - m))`, and the sum of
`exp` over the stored normalized log-weights equals 1 exactly in real
arithmetic, for raw vectors of any magnitude. -/
theorem particles_store_lognormalized_weights (d : ParamDict) (ll w : List ℝ)
    (h : w ≠ []) :
    (Particles.ofRaw d ll w).log_weights
        = w.map (fun x => x - listMax w
            - Real.log ((w.map (fun y => Real.exp (y - listMax w))).sum))
      ∧ ((Particles.ofRaw d ll w).log_weights.map Real.exp).sum = 1 :=
  ⟨normalize_log_weights_closed w h, sum_exp_normalize w h⟩

/-- Witness for C1 at the raw log-weight vector `[0, 1]`. -/
theorem particles_store_lognormalized_weights_witness :
    ([(0 : ℝ), 1] ≠ ([] : List ℝ))
      ∧ ((Particles.ofRaw [("a", [2, 3])] [4, 5] [0, 1]).log_weights.map Real.exp).sum = 1 :=
  ⟨by simp,
    (particles_store_lognormalized_weights [("a", [2, 3])] [4, 5] [0, 1] (by simp)).2⟩

/-- C10: weight normalization is shift-invariant — adding a constant `c` to
every entry of a non-empty raw log-weight vector `w` yields exactly the same
normalized log-weights and weights in the constructed container as `w` itself,
in exact real arithmetic. -/
theorem normalization_shift_invariant (d : ParamDict) (ll w : List ℝ) (c : ℝ)
    (h : w ≠ []) :
    (Particles.ofRaw d ll (w.map (fun x => x + c))).log_weights
        = (Particles.ofRaw d ll w).log_weights
      ∧ (Particles.ofRaw d ll (w.map (fun x => x + c))).weights
        = (Particles.ofRaw d ll w).weights := by
  have hkey := normalize_log_weights_shift w c h
  refine ⟨hkey, ?_⟩
  show (normalize_log_weights (w.map (fun x => x + c))).map Real.exp
      = (normalize_log_weights w).map Real.exp
  rw [hkey]

/-- Witness for C10 at `w = [0, 1]`, `c = 5`. -/
theorem normalization_shift_invariant_witness :
    ([(0 : ℝ), 1] ≠ ([] : List ℝ))
      ∧ (Particles.ofRaw [("a", [2, 3])] [4, 5]
            ([(0 : ℝ), 1].map (fun x => x + 5))).weights
          = (Particles.ofRaw [("a", [2, 3])] [4, 5] [0, 1]).weights :=
  ⟨by simp,
    (normalization_shift_invariant [("a", [2, 3])] [4, 5] [0, 1] 5 (by simp)).2⟩

/-- C2: for every `total ≥ 0`, `size ≥ 1` and `rank < size`,
`get_num_particles_in_partition total rank size` equals `floor (total / size)`
plus one extra when `rank < total mod size`; the counts summed over all ranks
equal `total` exactly, no count is negative, and any two ranks' counts differ
by at most 1. -/
theorem partition_even_split (total size rank : ℕ) (hsize : 1 ≤ size)
    (_hrank : rank < size) :
    get_num_particles_in_partition total rank size
        = total / size + (if rank < total % size then 1 else 0)
      ∧ (∑ r in Finset.range size, get_num_particles_in_partition total r size) = total
      ∧ 0 ≤ get_num_particles_in_partition total rank size
      ∧ (∀ r1 r2, r1 < size → r2 < size →
          get_num_particles_in_partition total r1 size
            ≤ get_num_particles_in_partition total r2 size + 1) := by
  have hm : total % size < size := Nat.mod_lt _ hsize
  refine ⟨rfl, ?_, Nat.zero_le _, ?_⟩
  · have hsplit : (∑ r in Finset.range size, get_num_particles_in_partition total r size)
        = (∑ _r in Finset.range size, total / size)
          + ∑ r in Finset.range size, (if r < total % size then 1 else 0) := by
      rw [← Finset.sum_add_distrib]
      rfl
    have hfilter : (Finset.range size).filter (fun r => r < total % size)
        = Finset.range (total % size) := by
      ext x
      simp only [Finset.mem_filter, Finset.mem_range]
      omega
    rw [hsplit, Finset.sum_const, Finset.card_range, smul_eq_mul,
      ← Finset.card_filter, hfilter, Finset.card_range]
    exact Nat.div_add_mod total size
  · intro r1 r2 _ _
    unfold get_num_particles_in_partition
    split_ifs <;> omega

/-- Witness for C2 at `total = 10`, `size = 3`: ranks 0, 1, 2 receive
4, 3, 3, and the counts sum back to 10. -/
theorem partition_even_split_witness :
    get_num_particles_in_partition 10 0 3 = 4
      ∧ get_num_particles_in_partition 10 1 3 = 3
      ∧ get_num_particles_in_partition 10 2 3 = 3
      ∧ (∑ r in Finset.range 3, get_num_particles_in_partition 10 r 3) = 10 :=
  ⟨by decide, by decide, by decide,
    (partition_even_split 10 3 0 (by decide) (by decide)).2.1⟩

/-- C8: constructing the particle container raises TypeError when `params` is
not a name-to-array mapping, raises ValueError when the log-likelihood length
or the raw log-weight length differs from the particle count `N` implied by
the params arrays, and succeeds only when both lengths equal `N`. -/
theorem particles_construction_validation (d : ParamDict) (log_likes log_weights : List ℝ)
    (N : ℕ) (hd : d ≠ []) (hcols : ∀ pr ∈ d, pr.2.length = N) :
    (∀ ll lw : List ℝ, Particles.make .nonDict ll lw = .error .typeError)
      ∧ ((log_likes.length ≠ N ∨ log_weights.length ≠ N) →
          Particles.make (.dict d) log_likes log_weights = .error .valueError)
      ∧ (∀ p, Particles.make (.dict d) log_likes log_weights = .ok p →
          log_likes.length = N ∧ log_weights.length = N) := by
  cases d with
  | nil => exact absurd rfl hd
  | cons pr rest =>
    obtain ⟨n0, v0⟩ := pr
    have hv0 : v0.length = N := hcols (n0, v0) (by simp)
    have herr : (log_likes.length ≠ N ∨ log_weights.length ≠ N) →
        Particles.make (.dict ((n0, v0) :: rest)) log_likes log_weights
          = .error .valueError := by
      intro hmis
      simp only [Particles.make]
      by_cases h1 : (rest.all fun pr => pr.2.length == v0.length) = true
      · rw [if_neg (by simp [h1])]
        by_cases h2 : log_likes.length ≠ v0.length
        · rw [if_pos h2]
        · rw [if_neg h2, if_pos (show log_weights.length ≠ v0.length by omega)]
      · rw [if_pos (by simp [h1])]
    refine ⟨fun ll lw => rfl, herr, ?_⟩
    intro p hp
    by_contra hcon
    have hmis : log_likes.length ≠ N ∨ log_weights.length ≠ N := by omega
    rw [herr hmis] at hp
    exact Except.noConfusion hp

/-- Witness for C8 at a concrete one-parameter dict of two particles. -/
theorem particles_construction_validation_witness :
    Particles.make .nonDict [] [] = .error .typeError :=
  (particles_construction_validation [("a", [(0 : ℝ), 1])] [5, 6] [0, 0] 2
    (by simp) (by simp)).1 [] []

/-- C9: constructing the initializer with an object that is not an
`MCMCKernel` instance raises TypeError at construction with no kernel
operation invoked (empty trace, so the failure precedes any sampling or
likelihood evaluation); with a conforming kernel, construction succeeds,
stores the kernel unchanged, and likewise invokes no kernel operation. -/
theorem initializer_construction_typecheck (k : MCMCKernelData) :
    Initializer.make .notKernel = (.error .typeError, [])
      ∧ Initializer.make (.kernel k) = (.ok ⟨k⟩, []) :=
  ⟨rfl, rfl⟩

/-- Witness for C9 at the example kernel. -/
theorem initializer_construction_typecheck_witness :
    Initializer.make .notKernel = (.error .typeError, [])
      ∧ Initializer.make (.kernel exampleKernel) = (.ok ⟨exampleKernel⟩, []) :=
  initializer_construction_typecheck exampleKernel

/-- C3: `init_particles_from_prior` assigns every particle the uniform raw
log-weight `log(1 / num_particles)` computed from the global total, stores the
kernel's log-likelihood output unchanged as the population's log-likelihoods,
and the resulting population's normalized weights are uniform at `1/N` each. -/
theorem init_from_prior_uniform (init : Initializer) (N : ℕ) (d : ParamDict)
    (ll : List ℝ)
    (hd : init.mcmc_kernel.sample_from_prior N = d)
    (hll : init.mcmc_kernel.get_log_likelihoods d = ll)
    (hdne : d ≠ [])
    (hcols : ∀ pr ∈ d, pr.2.length = N)
    (hlen : ll.length = N)
    (hN : 0 < N) :
    init_particles_from_prior init N
        = .ok (Particles.ofRaw d ll (List.replicate N (Real.log (1 / (N : ℝ)))))
      ∧ (Particles.ofRaw d ll (List.replicate N (Real.log (1 / (N : ℝ))))).log_likes = ll
      ∧ (Particles.ofRaw d ll (List.replicate N (Real.log (1 / (N : ℝ))))).weights
          = List.replicate N (1 / (N : ℝ)) := by
  refine ⟨?_, rfl, ?_⟩
  · simp only [init_particles_from_prior]
    rw [hd, hll]
    exact make_ok d ll _ N hdne hcols hlen (by simp) hN
  · exact normalize_replicate_weights N (Real.log (1 / (N : ℝ))) hN

/-- Witness for C3 on the test-suite inputs: 5 particles with uniform raw
log-weight `log(1/5)` give uniform normalized weights `1/5`. -/
theorem init_from_prior_uniform_witness :
    init_particles_from_prior ⟨exampleKernel⟩ 5
        = .ok (Particles.ofRaw [("a", [1, 1, 1, 2, 2])] [0.1, 0.1, 0.1, 0.2, 0.2]
            (List.replicate 5 (Real.log (1 / (5 : ℝ)))))
      ∧ (Particles.ofRaw [("a", [1, 1, 1, 2, 2])] [0.1, 0.1, 0.1, 0.2, 0.2]
            (List.replicate 5 (Real.log (1 / (5 : ℝ))))).weights
          = List.replicate 5 (1 / (5 : ℝ)) := by
  have h := init_from_prior_uniform ⟨exampleKernel⟩ 5 [("a", [1, 1, 1, 2, 2])]
    [0.1, 0.1, 0.1, 0.2, 0.2] rfl rfl (by simp) (by simp) rfl (by decide)
  exact ⟨h.1, h.2.2⟩

/-- C4: `init_particles_from_samples` computes the raw log-weight of each
particle elementwise as the kernel-evaluated log-prior at that sample minus
the natural log of the corresponding proposal density, and constructs the
population from those samples, the kernel log-likelihoods, and these raw
log-weights. -/
theorem init_from_samples_importance_weights (init : Initializer) (samples : ParamDict)
    (pd ll lp : List ℝ) (N : ℕ)
    (hll : init.mcmc_kernel.get_log_likelihoods samples = ll)
    (hlp : init.mcmc_kernel.get_log_priors samples = lp)
    (hdne : samples ≠ [])
    (hcols : ∀ pr ∈ samples, pr.2.length = N)
    (hlen : ll.length = N) (hplen : lp.length = N) (hpdlen : pd.length = N)
    (hN : 0 < N) :
    init_particles_from_samples init samples pd
        = .ok (Particles.ofRaw samples ll
            (List.zipWith (fun a b => a - Real.log b) lp pd))
      ∧ (Particles.ofRaw samples ll
            (List.zipWith (fun a b => a - Real.log b) lp pd)).log_likes = ll
      ∧ (Particles.ofRaw samples ll
            (List.zipWith (fun a b => a - Real.log b) lp pd)).log_weights
          = normalize_log_weights (List.zipWith (fun a b => a - Real.log b) lp pd) := by
  refine ⟨?_, rfl, rfl⟩
  simp only [init_particles_from_samples]
  rw [hll, hlp]
  exact make_ok samples ll _ N hdne hcols hlen (by simp [hplen, hpdlen]) hN

/-- Witness for C4 on the test-suite inputs. -/
theorem init_from_samples_importance_weights_witness :
    init_particles_from_samples ⟨exampleKernel⟩ [("a", [1, 1, 1, 2, 2])]
        [0.1, 0.1, 0.1, 0.2, 0.2]
      = .ok (Particles.ofRaw [("a", [1, 1, 1, 2, 2])] [0.1, 0.1, 0.1, 0.2, 0.2]
          (List.zipWith (fun a b => a - Real.log b) [0.2, 0.2, 0.2, 0.3, 0.3]
            [0.1, 0.1, 0.1, 0.2, 0.2])) :=
  (init_from_samples_importance_weights ⟨exampleKernel⟩ [("a", [1, 1, 1, 2, 2])]
    [0.1, 0.1, 0.1, 0.2, 0.2] [0.1, 0.1, 0.1, 0.2, 0.2] [0.2, 0.2, 0.2, 0.3, 0.3] 5
    rfl rfl (by simp) (by simp) rfl rfl rfl (by decide)).1

/-- C6: for every constructed population of `N` particles, `compute_ess`
returns `1 / Σ weight_i²`; this value always lies in the closed interval
`[1, N]`, and equals exactly `N` when the normalized weights are uniform at
`1/N` each. -/
theorem ess_bounds (d : ParamDict) (ll lw : List ℝ) (hlw : lw ≠ [])
    (hN : (Particles.ofRaw d ll lw).num_particles = lw.length) :
    compute_ess (Particles.ofRaw d ll lw)
        = 1 / ((Particles.ofRaw d ll lw).weights.map (fun x => x ^ 2)).sum
      ∧ 1 ≤ compute_ess (Particles.ofRaw d ll lw)
      ∧ compute_ess (Particles.ofRaw d ll lw)
          ≤ ((Particles.ofRaw d ll lw).num_particles : ℝ)
      ∧ ((∀ x ∈ (Particles.ofRaw d ll lw).weights,
            x = 1 / ((Particles.ofRaw d ll lw).num_particles : ℝ)) →
          compute_ess (Particles.ofRaw d ll lw)
            = ((Particles.ofRaw d ll lw).num_particles : ℝ)) := by
  have hwlen : ((normalize_log_weights lw).map Real.exp).length = lw.length := by
    rw [List.length_map, normalize_length]
  have hwne : (normalize_log_weights lw).map Real.exp ≠ [] := by
    intro hnil
    apply hlw
    have hlen0 := congrArg List.length hnil
    rw [hwlen] at hlen0
    exact List.length_eq_zero.1 hlen0
  have hpos : ∀ x ∈ (normalize_log_weights lw).map Real.exp, 0 < x := by
    intro x hx
    obtain ⟨a, _, rfl⟩ := List.mem_map.1 hx
    exact Real.exp_pos _
  have hsum1 : ((normalize_log_weights lw).map Real.exp).sum = 1 :=
    sum_exp_normalize lw hlw
  have hQpos :
      0 < (((normalize_log_weights lw).map Real.exp).map (fun x => x ^ 2)).sum := by
    refine List.sum_pos _ ?_ ?_
    · intro x hx
      obtain ⟨a, ha, rfl⟩ := List.mem_map.1 hx
      exact pow_pos (hpos a ha) 2
    · intro hnil
      exact hwne (List.map_eq_nil_iff.1 hnil)
  have hQle :
      (((normalize_log_weights lw).map Real.exp).map (fun x => x ^ 2)).sum ≤ 1 := by
    have h := sum_sq_le_sq_sum_of_nonneg ((normalize_log_weights lw).map Real.exp)
      (fun x hx => le_of_lt (hpos x hx))
    rwa [hsum1, one_pow] at h
  have hNQ : 1 ≤ (((normalize_log_weights lw).map Real.exp).length : ℝ)
      * (((normalize_log_weights lw).map Real.exp).map (fun x => x ^ 2)).sum := by
    have h := sq_list_sum_le ((normalize_log_weights lw).map Real.exp)
    rwa [hsum1, one_pow] at h
  have hcast : (((Particles.ofRaw d ll lw).num_particles : ℕ) : ℝ)
      = (((normalize_log_weights lw).map Real.exp).length : ℝ) := by
    rw [hN, hwlen]
  refine ⟨rfl, ?_, ?_, ?_⟩
  · show (1 : ℝ)
        ≤ 1 / (((normalize_log_weights lw).map Real.exp).map (fun x => x ^ 2)).sum
    rw [le_div_iff₀ hQpos, one_mul]
    exact hQle
  · show 1 / (((normalize_log_weights lw).map Real.exp).map (fun x => x ^ 2)).sum
        ≤ ((Particles.ofRaw d ll lw).num_particles : ℝ)
    rw [hcast, div_le_iff₀ hQpos]
    exact hNQ
  · intro hu
    have hu' : ∀ x ∈ (normalize_log_weights lw).map Real.exp,
        x = 1 / (((Particles.ofRaw d ll lw).num_particles : ℕ) : ℝ) := hu
    have hurep : (normalize_log_weights lw).map Real.exp
        = List.replicate ((normalize_log_weights lw).map Real.exp).length
            (1 / (((Particles.ofRaw d ll lw).num_particles : ℕ) : ℝ)) := by
      rw [List.eq_replicate_iff]
      exact ⟨rfl, hu'⟩
    have hlpos : 0 < ((normalize_log_weights lw).map Real.exp).length :=
      List.length_pos.2 hwne
    have hQval :
        (((normalize_log_weights lw).map Real.exp).map (fun x => x ^ 2)).sum
          = (((normalize_log_weights lw).map Real.exp).length : ℝ)
            * (1 / (((Particles.ofRaw d ll lw).num_particles : ℕ) : ℝ)) ^ 2 := by
      conv_lhs => rw [hurep]
      rw [List.map_replicate, List.sum_replicate, nsmul_eq_mul]
    show 1 / (((normalize_log_weights lw).map Real.exp).map (fun x => x ^ 2)).sum
        = ((Particles.ofRaw d ll lw).num_particles : ℝ)
    rw [hQval, hcast]
    have hlen0 : (((normalize_log_weights lw).map Real.exp).length : ℝ) ≠ 0 := by
      exact_mod_cast Nat.pos_iff_ne_zero.mp hlpos
    field_simp
    have hnn : (((normalize_log_weights lw).length : ℕ) : ℝ) ≠ 0 := by
      rw [normalize_length]
      exact Nat.cast_ne_zero.2 (fun h0 => hlw (List.length_eq_zero.1 h0))
    rw [sq, mul_div_assoc, div_self hnn, mul_one]

/-- Witness for C6 on two particles with equal raw log-weights. -/
theorem ess_bounds_witness :
    1 ≤ compute_ess (Particles.ofRaw [("a", [2, 3])] [4, 5] [0, 0])
      ∧ compute_ess (Particles.ofRaw [("a", [2, 3])] [4, 5] [0, 0])
          ≤ ((Particles.ofRaw [("a", [2, 3])] [4, 5] [0, 0]).num_particles : ℝ) := by
  have h := ess_bounds [("a", [2, 3])] [4, 5] [0, 0] (by simp) rfl
  exact ⟨h.2.1, h.2.2.1⟩

/-- C7: for every constructed population, `compute_variance` returns
per-parameter `Σ weight_i * (value_i - mean)² / (1 - Σ weight_i²)` with the
mean taken from `compute_mean`, and `compute_std_dev` returns the elementwise
square root of that variance. -/
theorem variance_formula (p : Particles) (j : ℕ) (hj : j < p.param_cols.length) :
    (compute_variance p).getD j 0
        = (List.zipWith (fun x w => w * (x - (compute_mean p).getD j 0) ^ 2)
            (p.param_cols.getD j []) p.weights).sum
          / (1 - (p.weights.map (fun w => w ^ 2)).sum)
      ∧ compute_std_dev p = (compute_variance p).map Real.sqrt := by
  refine ⟨?_, rfl⟩
  have hmlen : (compute_mean p).length = p.param_cols.length := by
    simp [compute_mean]
  show (List.zipWith
      (fun col m => (List.zipWith (fun x w => w * (x - m) ^ 2) col p.weights).sum
        / (1 - (p.weights.map (fun w => w ^ 2)).sum))
      p.param_cols (compute_mean p)).getD j 0 = _
  rw [getD_zipWith_of_lt _ p.param_cols (compute_mean p) j 0 [] 0 hj
    (by rw [hmlen]; exact hj)]

/-- Witness for C7 on a concrete two-particle, one-parameter population. -/
theorem variance_formula_witness :
    compute_std_dev (Particles.ofRaw [("a", [1, 2])] [0, 0] [0, 0])
      = (compute_variance (Particles.ofRaw [("a", [1, 2])] [0, 0] [0, 0])).map
          Real.sqrt :=
  (variance_formula (Particles.ofRaw [("a", [1, 2])] [0, 0] [0, 0]) 0
    (by simp [Particles.ofRaw])).2

/-- C5: `compute_covariance` always returns a symmetric matrix; whenever the
weighted-sample covariance fails the positive-semi-definiteness check, the
method records a warning and returns a repaired matrix whose off-diagonal
entries are all zero and whose diagonal equals the diagonal of the unrepaired
matrix, never raising an error for this condition (the embedding is a total
function).  The statement quantifies over an arbitrary check predicate, since
`Checks._is_positive_definite` lives outside the provided sources. -/
theorem covariance_symmetric_and_repair (check : List (List ℝ) → Bool) (p : Particles)
    (j k : ℕ) (hj : j < p.param_cols.length) (hk : k < p.param_cols.length) :
    Mat.entry (compute_covariance check p).1 j k
        = Mat.entry (compute_covariance check p).1 k j
      ∧ (check (raw_covariance p) = false →
          (compute_covariance check p).2 = true
            ∧ (j ≠ k → Mat.entry (compute_covariance check p).1 j k = 0)
            ∧ Mat.entry (compute_covariance check p).1 j j
                = Mat.entry (raw_covariance p) j j) := by
  have hlenraw : (raw_covariance p).length = p.param_cols.length := raw_covariance_length p
  cases hcheck : check (raw_covariance p) with
  | true =>
    have hcc : compute_covariance check p = (raw_covariance p, false) := by
      simp [compute_covariance, hcheck]
    rw [hcc]
    refine ⟨raw_covariance_symm p j k hj hk, ?_⟩
    intro hfalse
    exact Bool.noConfusion hfalse
  | false =>
    have hcc : compute_covariance check p
        = (repair_covariance (raw_covariance p), true) := by
      simp [compute_covariance, hcheck]
    rw [hcc]
    have hrepair : ∀ a b, a < p.param_cols.length → b < p.param_cols.length →
        Mat.entry (repair_covariance (raw_covariance p)) a b
          = if a = b then Mat.entry (raw_covariance p) a a else 0 := by
      intro a b ha hb
      exact repair_entry (raw_covariance p) a b
        (by rw [hlenraw]; exact ha) (by rw [hlenraw]; exact hb)
    refine ⟨?_, fun _ => ⟨rfl, ?_, ?_⟩⟩
    · rw [hrepair j k hj hk, hrepair k j hk hj]
      by_cases hjk : j = k
      · subst hjk
        simp
      · rw [if_neg hjk, if_neg (Ne.symm hjk)]
    · intro hne
      rw [hrepair j k hj hk, if_neg hne]
    · rw [hrepair j j hj hj, if_pos rfl]

/-- Witness for C5 with an always-failing check on a concrete population:
the diagonal of the repaired matrix agrees with the unrepaired diagonal. -/
theorem covariance_symmetric_and_repair_witness :
    Mat.entry (compute_covariance (fun _ => false)
        (Particles.ofRaw [("a", [1, 2])] [0, 0] [0, 0])).1 0 0
      = Mat.entry (raw_covariance (Particles.ofRaw [("a", [1, 2])] [0, 0] [0, 0])) 0 0 :=
  ((covariance_symmetric_and_repair (fun _ => false)
      (Particles.ofRaw [("a", [1, 2])] [0, 0] [0, 0]) 0 0
      (by simp [Particles.ofRaw]) (by simp [Particles.ofRaw])).2 rfl).2.2

end SMCPy
